import Mathlib

/-!
# Verification of the reflink_dedupe_server torrent matcher

Shallow embedding of the piece-aware torrent-to-local-file matcher of the
repository, covering:

* src/src/utils/hashPiece.ts — two revisions are present in the file,
  separated in the source tree; we embed both:
  - the revision at lines 1-84 (an in-memory memoisation layer keyed by
    file hash on top of the main database, table piece_hashes), in
    namespace MemCache;
  - the revision at lines 85-128 (no memoisation, server database, table
    file_pieces with PRIMARY KEY (file_hash, piece_length, piece_index),
    INSERT OR IGNORE), in namespace SrvDb.
* src/src/paths/torrent/filetree.ts — computePieces and the candidate
  matching loop of getTorrentFiletree.
* src/src/algorithms/torrentMatcher.ts — buildSlots.

Modelling conventions:
* A byte sequence (Node Buffer) is a List Nat.
* SHA-1 is kept abstract: every definition that hashes takes an explicit
  function sha1 : Bytes → Bytes.  Claims are about the data flow around
  the hash, never about SHA-1 itself; witnesses instantiate sha1 with a
  concrete function.
* Hex encoding of digests (Buffer.toString('hex') / Buffer.from(s,'hex'))
  is a bijection between byte sequences and hex strings; the model elides
  it and carries digests as byte sequences end to end.
* A database table is a list of rows; SELECT with the primary key is the
  first matching row; SQL evaluation order of the row list is insertion
  order.
* The filesystem is a finite association of paths to contents; fh.read at
  an offset returns the bytes present there, possibly fewer than requested
  (a short read at end of file).
-/

/-- A byte sequence (the model of a Node.js Buffer). -/
abbrev Bytes := List Nat

/-- Model of fh.read(buffer, 0, length, offset): the bytes of the file
from offset, at most length of them.  A short read near end of file
returns fewer than length bytes, exactly as the Node API does. -/
def fsRead (file : Bytes) (offset length : Nat) : Bytes :=
  (file.drop offset).take length

/-- Error kinds the spec assigns to the piece hasher (spec section 4.2 and
section 7).  The source code never raises ioTruncated; the constructor
exists so the spec's claimed failure mode is statable. -/
inductive IoError where
  | ioTruncated : IoError
  | ioRead : IoError
deriving DecidableEq

namespace SrvDb

/-- Embeds hashPiece, src/src/utils/hashPiece.ts lines 93-104:
opens the file, reads up to length bytes at offset (bytesRead may be
smaller than length at end of file), and hashes buffer.subarray(0,
bytesRead) — i.e. exactly the bytes actually read. -/
def hashPiece (sha1 : Bytes → Bytes) (file : Bytes) (offset length : Nat) : Bytes :=
  sha1 (fsRead file offset length)

/-- The observable outcome of running hashPiece on an existing file: the
function body has no throw; it always completes with the digest of the
bytes read.  The Except layer records the absence of any error outcome
(the spec predicts an ioTruncated failure on short reads). -/
def hashPieceRun (sha1 : Bytes → Bytes) (file : Bytes) (offset length : Nat) :
    Except IoError Bytes :=
  Except.ok (hashPiece sha1 file offset length)

/-- A row of the piece-hash table (file_pieces in the server database,
piece_hashes in the main database): (file_hash, piece_length, piece_index,
piece_hash), keyed by the first three. -/
structure PieceRow where
  file_hash : String
  piece_length : Nat
  piece_index : Nat
  piece_hash : Bytes
deriving DecidableEq

/-- Two rows collide on the primary key (file_hash, piece_length,
piece_index). -/
def sameKey (a b : PieceRow) : Bool :=
  a.file_hash == b.file_hash && a.piece_length == b.piece_length &&
    a.piece_index == b.piece_index

/-- SELECT piece_index, piece_hash FROM … WHERE file_hash = ? AND
piece_length = ?  — the rows of the table matching the queried key, in
table order. -/
def rowsFor (db : List PieceRow) (fileHash : String) (pieceLength : Nat) :
    List PieceRow :=
  db.filter (fun r => r.file_hash == fileHash && r.piece_length == pieceLength)

/-- JS Map.set: replace the value when the key is present, append
otherwise. -/
def alSet (m : List (Nat × Bytes)) (k : Nat) (v : Bytes) : List (Nat × Bytes) :=
  match m with
  | [] => [(k, v)]
  | (k', v') :: rest => if k' == k then (k, v) :: rest else (k', v') :: alSet rest k v

/-- The loop for (const row of rows) map.set(row.piece_index,
row.piece_hash). -/
def mapOfRows (rows : List PieceRow) : List (Nat × Bytes) :=
  rows.foldl (fun m r => alSet m r.piece_index r.piece_hash) []

/-- Embeds getCachedPieceHashes, src/src/utils/hashPiece.ts lines 109-114:
query the file_pieces table for the key and build a Map from the rows.
This revision consults no in-memory cache. -/
def getCachedPieceHashes (db : List PieceRow) (fileHash : String)
    (pieceLength : Nat) : List (Nat × Bytes) :=
  mapOfRows (rowsFor db fileHash pieceLength)

/-- SELECT by full primary key: the digest stored under (file_hash,
piece_length, piece_index), if any.  First match in table order. -/
def lookupRow (db : List PieceRow) (fileHash : String) (pieceLength pieceIndex : Nat) :
    Option Bytes :=
  (db.find? (fun r => r.file_hash == fileHash && r.piece_length == pieceLength &&
    r.piece_index == pieceIndex)).map (·.piece_hash)

/-- INSERT OR IGNORE: the row is appended unless some existing row has the
same primary key, in which case the statement is a no-op. -/
def insertOrIgnore (db : List PieceRow) (r : PieceRow) : List PieceRow :=
  if db.any (fun x => sameKey x r) then db else db ++ [r]

/-- The loop of storePieceHashes: for i from j upward, INSERT OR IGNORE
(fileHash, pieceLength, i, pieceHashes[i]). -/
def storeFrom (db : List PieceRow) (fileHash : String) (pieceLength j : Nat) :
    List Bytes → List PieceRow
  | [] => db
  | h :: hs =>
    storeFrom (insertOrIgnore db ⟨fileHash, pieceLength, j, h⟩) fileHash pieceLength (j + 1) hs

/-- Embeds storePieceHashes, src/src/utils/hashPiece.ts lines 119-128:
INSERT OR IGNORE one row per index of the pieceHashes array, indices
starting at 0. -/
def storePieceHashes (db : List PieceRow) (fileHash : String) (pieceLength : Nat)
    (pieceHashes : List Bytes) : List PieceRow :=
  storeFrom db fileHash pieceLength 0 pieceHashes

end SrvDb

namespace MemCache

open SrvDb (PieceRow rowsFor mapOfRows)

/-- The module-level in-memory cache of src/src/utils/hashPiece.ts line 6:
pieceCache : Map from fileHash (alone — the piece length is not part of
the key) to a Map from piece index to digest. -/
abbrev PieceCache := List (String × List (Nat × Bytes))

/-- Embeds getCachedPieceHashes, src/src/utils/hashPiece.ts lines 30-51:
if pieceCache has the file hash, return the memoised map without touching
the database; otherwise query the piece_hashes table for (fileHash,
pieceLength), build a map from the rows, memoise it under the file hash
alone, and return it.  The result triple is (returned map, pieceCache
after the call, whether the database was queried). -/
def getCachedPieceHashes (cache : PieceCache) (db : List PieceRow)
    (fileHash : String) (pieceLength : Nat) :
    List (Nat × Bytes) × PieceCache × Bool :=
  match cache.lookup fileHash with
  | some m => (m, cache, false)
  | none =>
    let map := mapOfRows (rowsFor db fileHash pieceLength)
    (map, cache ++ [(fileHash, map)], true)

end MemCache

namespace Filetree

open SrvDb (PieceRow hashPiece getCachedPieceHashes)

/-- Embeds computePieces, src/src/paths/torrent/filetree.ts lines 22-54.
For each local piece index i below pieceCount: a cached digest is used
when present; otherwise the candidate file is read at the candidate-local
offset i * pieceLength for readLength bytes, where readLength is computed
from the global offsets as pieceEndGlobal - pieceStartGlobal (which is
always the full pieceLength — the source does not clamp the final read to
the file end), and the bytes actually read are hashed.  The source's
trailing computedPieces.filter(Boolean) is the identity here because every
index is populated with a (non-empty) digest. -/
def computePieces (sha1 : Bytes → Bytes) (file : Bytes)
    (pieceLength pieceCount : Nat) (cachedPieces : List (Nat × Bytes))
    (globalOffset : Nat) : List Bytes :=
  (List.range pieceCount).map (fun i =>
    match cachedPieces.lookup i with
    | some h => h
    | none =>
      let pieceStartGlobal := globalOffset + i * pieceLength
      let pieceEndGlobal := pieceStartGlobal + pieceLength
      let readLength := pieceEndGlobal - pieceStartGlobal
      hashPiece sha1 file (i * pieceLength) readLength)

/-- Math.ceil(f.length / pieceLength) on naturals (filetree.ts line 123). -/
def pieceCountOf (len pieceLength : Nat) : Nat :=
  (len + pieceLength - 1) / pieceLength

/-- The index into the torrent digest array used by the matched-loop of
getTorrentFiletree (filetree.ts lines 132-133): the slice of the pieces
buffer starts at byte floor(pieceStartGlobal / pieceLength) * 20, i.e. it
is the digest with index floor((globalOffset + i*pieceLength) /
pieceLength). -/
def torrentHashIndex (globalOffset pieceLength i : Nat) : Nat :=
  (globalOffset + i * pieceLength) / pieceLength

/-- Embeds the matched-flag loop of getTorrentFiletree, filetree.ts lines
122-139, for one candidate: every local piece digest (cached or computed
by computePieces) must equal the torrent digest selected by
torrentHashIndex.  The loop breaks at the first mismatch; the boolean
outcome equals this conjunction.  (pieceEndGlobal and readLength computed
inside the loop at lines 130-131 are dead there and are omitted.) -/
def candidateMatches (sha1 : Bytes → Bytes) (pieceDigests : List Bytes)
    (file : Bytes) (pieceLength globalOffset fLength : Nat)
    (cachedPieces : List (Nat × Bytes)) : Bool :=
  let pieceCount := pieceCountOf fLength pieceLength
  let computedPieces := computePieces sha1 file pieceLength pieceCount cachedPieces globalOffset
  (List.range pieceCount).all (fun i =>
    computedPieces.getD i [] == pieceDigests.getD (torrentHashIndex globalOffset pieceLength i) [])

/-- A row of the read-only file catalog returned by SELECT path, hash FROM
files WHERE file_size = ? (filetree.ts line 109). -/
structure CatalogRow where
  path : String
  hash : String
deriving DecidableEq

/-- path.isAbsolute on POSIX: the path begins with the separator. -/
def isAbsolute (p : String) : Bool :=
  match p.data with
  | [] => false
  | c :: _ => c == '/'

/-- path.isAbsolute(c.path) ? c.path : path.join(DEDUPLICATION_ROOT,
c.path) (filetree.ts line 116). -/
def resolvePath (root p : String) : String :=
  if isAbsolute p then p else root ++ "/" ++ p

/-- A torrent file entry as decoded from the metainfo: path inside the
torrent and byte length. -/
structure TFile where
  path : String
  length : Nat
deriving DecidableEq

/-- The entry getTorrentFiletree pushes per torrent file (filetree.ts
lines 16-20 and 155). -/
structure FileTreeEntry where
  path : String
  size : Nat
  locations : List String
deriving DecidableEq

/-- The external collaborators of getTorrentFiletree, as read-only data:
the SHA-1 function, the deduplication root, the catalog query by file
size, the filesystem (path to contents; existsSync is membership), and
the state of the server piece-hash table consulted through
getCachedPieceHashes. -/
structure MatchEnv where
  sha1 : Bytes → Bytes
  root : String
  catalog : Nat → List CatalogRow
  fsys : List (String × Bytes)
  pieceDb : List PieceRow

/-- Embeds the candidate loop of getTorrentFiletree, filetree.ts lines
115-153, producing the locations list of one slot: for each catalog row,
resolve the path; skip it when the file does not exist; otherwise run the
matched check and keep the resolved path on success.  (The
storePieceHashes side effect scheduled on success via setImmediate does
not affect the response and is modelled separately by
SrvDb.storePieceHashes.) -/
def slotLocations (env : MatchEnv) (pieceDigests : List Bytes)
    (pieceLength globalOffset fLength : Nat) (candidates : List CatalogRow) :
    List String :=
  candidates.filterMap (fun c =>
    let candidatePath := resolvePath env.root c.path
    match env.fsys.lookup candidatePath with
    | none => none
    | some content =>
      if candidateMatches env.sha1 pieceDigests content pieceLength globalOffset fLength
          (getCachedPieceHashes env.pieceDb c.hash pieceLength)
      then some candidatePath else none)

/-- Embeds the per-file loop of getTorrentFiletree, filetree.ts lines
104-157: for each torrent file, query the catalog by the file's length,
compute the slot's locations, emit the filetree entry, and advance
globalOffset by the file's length. -/
def buildFiletree (env : MatchEnv) (pieceDigests : List Bytes)
    (pieceLength : Nat) : List TFile → Nat → List FileTreeEntry
  | [], _ => []
  | f :: rest, globalOffset =>
    { path := f.path, size := f.length,
      locations := slotLocations env pieceDigests pieceLength globalOffset f.length
        (env.catalog f.length) } ::
      buildFiletree env pieceDigests pieceLength rest (globalOffset + f.length)

end Filetree

namespace Matcher

/-- A torrent file entry of torrentMatcher.ts (lines 6-9). -/
structure TorrentFile where
  path : String
  length : Nat
deriving DecidableEq

/-- TorrentInfo of torrentMatcher.ts (lines 11-16); pieces is the
concatenated digest sequence, modelled as a list of 20-byte digests. -/
structure TorrentInfo where
  pieceLength : Nat
  pieces : List Bytes
  files : List TorrentFile
deriving DecidableEq

/-- The Slot record built by buildSlots (torrentMatcher.ts lines 23-35).
firstPiece and lastPiece are carried as integers because JavaScript's
Math.floor((offsetEnd - 1) / P) is -1 when offsetEnd = 0 (a zero-length
first file); prefxLen embeds the source field prefixLen.  The candidates
field, always initialised to the empty array, is omitted. -/
structure Slot where
  index : Nat
  filePathInTorrent : String
  size : Nat
  offsetStart : Nat
  offsetEnd : Nat
  firstPiece : Int
  lastPiece : Int
  prefxLen : Nat
  suffixLen : Nat
  middlePieceIndices : List Nat
deriving DecidableEq

/-- One iteration of the buildSlots loop (torrentMatcher.ts lines 53-87)
at file index i with running offset offsetStart. -/
def buildSlot (P : Nat) (i offsetStart : Nat) (f : TorrentFile) : Slot :=
  let offsetEnd := offsetStart + f.length
  let firstPiece : Int := Int.fdiv offsetStart P
  let lastPiece : Int := Int.fdiv ((offsetEnd : Int) - 1) P
  let prefxLen := offsetStart % P
  let offsetEndMod := offsetEnd % P
  let suffixLen := if offsetEndMod == 0 then 0 else P - offsetEndMod
  let middlePieceIndices :=
    ((List.range ((lastPiece + 1 - firstPiece).toNat)).map
      (fun t => (firstPiece + t).toNat)).filter
      (fun k => decide (offsetStart ≤ k * P) && decide ((k + 1) * P ≤ offsetEnd))
  { index := i, filePathInTorrent := f.path, size := f.length,
    offsetStart := offsetStart, offsetEnd := offsetEnd,
    firstPiece := firstPiece, lastPiece := lastPiece,
    prefxLen := prefxLen, suffixLen := suffixLen,
    middlePieceIndices := middlePieceIndices }

/-- The recursion of buildSlots over the file list, threading the running
offset (offset = offsetEnd after each file). -/
def buildSlotsFrom (P : Nat) : Nat → Nat → List TorrentFile → List Slot
  | _, _, [] => []
  | i, offset, f :: rest =>
    buildSlot P i offset f :: buildSlotsFrom P (i + 1) (offset + f.length) rest

/-- Embeds buildSlots, src/src/algorithms/torrentMatcher.ts lines 49-89. -/
def buildSlots (info : TorrentInfo) : List Slot :=
  buildSlotsFrom info.pieceLength 0 0 info.files

end Matcher

/-! ## Helper lemmas about the piece-hash store -/

namespace SrvDb

/-- No two rows of the table share the primary key (the PRIMARY KEY
constraint of file_pieces, maintained by INSERT OR IGNORE). -/
def wellKeyed : List PieceRow → Bool
  | [] => true
  | r :: rest => !(rest.any (fun x => sameKey r x)) && wellKeyed rest

/-- No two rows of a list share a piece_index. -/
def distinctIdx : List PieceRow → Bool
  | [] => true
  | r :: rest => !(rest.any (fun x => x.piece_index == r.piece_index)) && distinctIdx rest

theorem alSet_lookup_self (m : List (Nat × Bytes)) (k : Nat) (v : Bytes) :
    (alSet m k v).lookup k = some v := by
  induction m with
  | nil => simp [alSet, List.lookup]
  | cons a rest ih =>
    obtain ⟨k', v'⟩ := a
    by_cases h : k' = k
    · simp [alSet, h, List.lookup]
    · have hb : (k == k') = false := beq_eq_false_iff_ne.mpr (Ne.symm h)
      have hb' : (k' == k) = false := beq_eq_false_iff_ne.mpr h
      simp [alSet, hb', List.lookup, hb, ih]

theorem alSet_lookup_ne (m : List (Nat × Bytes)) (k : Nat) (v : Bytes) (i : Nat)
    (h : i ≠ k) : (alSet m k v).lookup i = m.lookup i := by
  have hik : (i == k) = false := beq_eq_false_iff_ne.mpr h
  induction m with
  | nil => simp [alSet, List.lookup, hik]
  | cons a rest ih =>
    obtain ⟨k', v'⟩ := a
    by_cases hk : k' = k
    · subst hk
      simp [alSet, List.lookup, hik]
    · have hb' : (k' == k) = false := beq_eq_false_iff_ne.mpr hk
      by_cases hik' : i = k'
      · simp [alSet, hb', List.lookup, hik', ih]
      · have hb'' : (i == k') = false := beq_eq_false_iff_ne.mpr hik'
        simp [alSet, hb', List.lookup, hb'', ih]

theorem foldl_alSet_lookup_of_forall_ne (rows : List PieceRow)
    (m0 : List (Nat × Bytes)) (i : Nat) (h : ∀ r ∈ rows, r.piece_index ≠ i) :
    (rows.foldl (fun m r => alSet m r.piece_index r.piece_hash) m0).lookup i =
      m0.lookup i := by
  induction rows generalizing m0 with
  | nil => rfl
  | cons a t ih =>
    have ha : a.piece_index ≠ i := h a (by simp)
    have ht : ∀ r ∈ t, r.piece_index ≠ i := fun r hr => h r (by simp [hr])
    simp only [List.foldl_cons]
    rw [ih _ ht, alSet_lookup_ne _ _ _ _ (Ne.symm ha)]

theorem foldl_alSet_lookup_of_mem (rows : List PieceRow)
    (m0 : List (Nat × Bytes)) (r : PieceRow) (hr : r ∈ rows)
    (hd : distinctIdx rows = true) :
    (rows.foldl (fun m r => alSet m r.piece_index r.piece_hash) m0).lookup
      r.piece_index = some r.piece_hash := by
  induction rows generalizing m0 with
  | nil => cases hr
  | cons a t ih =>
    have hd' : (t.any (fun x => x.piece_index == a.piece_index)) = false ∧
        distinctIdx t = true := by
      have := hd
      simp only [distinctIdx, Bool.and_eq_true, Bool.not_eq_true'] at this
      exact this
    rcases List.mem_cons.mp hr with heq | hmem
    · subst heq
      have hne : ∀ x ∈ t, x.piece_index ≠ r.piece_index := by
        intro x hx
        have := List.any_eq_false.mp hd'.1 x hx
        simpa [beq_iff_eq] using this
      simp only [List.foldl_cons]
      rw [foldl_alSet_lookup_of_forall_ne t _ _ hne, alSet_lookup_self]
    · simp only [List.foldl_cons]
      exact ih _ hmem hd'.2

theorem mem_rowsFor (db : List PieceRow) (fileHash : String) (pieceLength : Nat)
    (r : PieceRow) (hr : r ∈ db) (hh : r.file_hash = fileHash)
    (hp : r.piece_length = pieceLength) : r ∈ rowsFor db fileHash pieceLength := by
  simp [rowsFor, List.mem_filter, hr, hh, hp]

theorem distinctIdx_rowsFor (db : List PieceRow) (fileHash : String)
    (pieceLength : Nat) (hw : wellKeyed db = true) :
    distinctIdx (rowsFor db fileHash pieceLength) = true := by
  induction db with
  | nil => rfl
  | cons a t ih =>
    have hw' : (t.any (fun x => sameKey a x)) = false ∧ wellKeyed t = true := by
      have := hw
      simp only [wellKeyed, Bool.and_eq_true, Bool.not_eq_true'] at this
      exact this
    simp only [rowsFor, List.filter_cons]
    by_cases hpa : (a.file_hash == fileHash && a.piece_length == pieceLength) = true
    · simp only [hpa, if_true]
      have hrest := ih hw'.2
      simp only [distinctIdx, Bool.and_eq_true, Bool.not_eq_true']
      refine ⟨?_, hrest⟩
      rw [List.any_eq_false]
      intro x hx
      have hx' := List.mem_filter.mp hx
      have hkey := List.any_eq_false.mp hw'.1 x hx'.1
      simp only [Bool.and_eq_true, beq_iff_eq] at hpa hx' ⊢
      intro hidx
      have hcontra : sameKey a x = true := by
        simp only [sameKey, Bool.and_eq_true, beq_iff_eq]
        exact ⟨⟨hpa.1.trans hx'.2.1.symm, hpa.2.trans hx'.2.2.symm⟩, hidx.symm⟩
      simp [hcontra] at hkey
    · simp only [hpa, if_false]
      exact ih hw'.2

theorem lookupRow_eq_of_mem (db : List PieceRow) (fileHash : String)
    (pieceLength pieceIndex : Nat) (d : Bytes) (hw : wellKeyed db = true)
    (hm : PieceRow.mk fileHash pieceLength pieceIndex d ∈ db) :
    lookupRow db fileHash pieceLength pieceIndex = some d := by
  induction db with
  | nil => cases hm
  | cons a t ih =>
    have hw' : (t.any (fun x => sameKey a x)) = false ∧ wellKeyed t = true := by
      have := hw
      simp only [wellKeyed, Bool.and_eq_true, Bool.not_eq_true'] at this
      exact this
    rcases List.mem_cons.mp hm with heq | hmem
    · subst heq
      simp [lookupRow, List.find?]
    · by_cases hpa : (a.file_hash == fileHash && a.piece_length == pieceLength &&
          a.piece_index == pieceIndex) = true
      · exfalso
        have hkey := List.any_eq_false.mp hw'.1 _ hmem
        simp only [Bool.and_eq_true, beq_iff_eq] at hpa
        have hcontra : sameKey a (PieceRow.mk fileHash pieceLength pieceIndex d) = true := by
          simp [sameKey, hpa.1.1, hpa.1.2, hpa.2]
        simp [hcontra] at hkey
      · simp only [lookupRow, List.find?, hpa]
        exact ih hw'.2 hmem

theorem getCached_lookup_eq_lookupRow (db : List PieceRow) (fileHash : String)
    (pieceLength pieceIndex : Nat) (hw : wellKeyed db = true) :
    (getCachedPieceHashes db fileHash pieceLength).lookup pieceIndex =
      lookupRow db fileHash pieceLength pieceIndex := by
  cases hfind : db.find? (fun r => r.file_hash == fileHash &&
      r.piece_length == pieceLength && r.piece_index == pieceIndex) with
  | none =>
    have hforall := List.find?_eq_none.mp hfind
    have hne : ∀ r ∈ rowsFor db fileHash pieceLength, r.piece_index ≠ pieceIndex := by
      intro r hr hidx
      have hr' := List.mem_filter.mp hr
      apply hforall r hr'.1
      simp only [Bool.and_eq_true, beq_iff_eq] at hr' ⊢
      exact ⟨⟨hr'.2.1, hr'.2.2⟩, hidx⟩
    rw [getCachedPieceHashes, mapOfRows,
      foldl_alSet_lookup_of_forall_ne _ _ _ hne]
    simp [lookupRow, hfind, List.lookup]
  | some x =>
    have hx := List.find?_some hfind
    have hxm := List.mem_of_find?_eq_some hfind
    simp only [Bool.and_eq_true, beq_iff_eq] at hx
    have hmem := mem_rowsFor db fileHash pieceLength x hxm hx.1.1 hx.1.2
    have hd := distinctIdx_rowsFor db fileHash pieceLength hw
    have := foldl_alSet_lookup_of_mem (rowsFor db fileHash pieceLength) [] x hmem hd
    rw [getCachedPieceHashes, mapOfRows]
    rw [hx.2] at this
    rw [this]
    simp [lookupRow, hfind]

theorem any_sameKey_eq_false_of_lookupRow_none (db : List PieceRow)
    (fileHash : String) (pieceLength j : Nat) (v : Bytes)
    (h : lookupRow db fileHash pieceLength j = none) :
    db.any (fun x => sameKey x (PieceRow.mk fileHash pieceLength j v)) = false := by
  have hfind : db.find? (fun r => r.file_hash == fileHash &&
      r.piece_length == pieceLength && r.piece_index == j) = none := by
    simpa [lookupRow] using h
  have hforall := List.find?_eq_none.mp hfind
  rw [List.any_eq_false]
  intro x hx
  simpa [sameKey] using hforall x hx

theorem lookupRow_insertOrIgnore_of_some (db : List PieceRow) (r : PieceRow)
    (fileHash : String) (pieceLength pieceIndex : Nat) (d : Bytes)
    (h : lookupRow db fileHash pieceLength pieceIndex = some d) :
    lookupRow (insertOrIgnore db r) fileHash pieceLength pieceIndex = some d := by
  by_cases ha : db.any (fun x => sameKey x r) = true
  · simp [insertOrIgnore, ha, h]
  · simp only [Bool.not_eq_true] at ha
    obtain ⟨x, hx1, hx2⟩ := Option.map_eq_some'.mp h
    have hif : insertOrIgnore db r = db ++ [r] := by simp [insertOrIgnore, ha]
    rw [hif, lookupRow, List.find?_append, hx1]
    simp [Option.or, hx2]

theorem lookupRow_insertOrIgnore_self (db : List PieceRow)
    (fileHash : String) (pieceLength j : Nat) (v : Bytes)
    (h : lookupRow db fileHash pieceLength j = none) :
    lookupRow (insertOrIgnore db (PieceRow.mk fileHash pieceLength j v))
      fileHash pieceLength j = some v := by
  have ha := any_sameKey_eq_false_of_lookupRow_none db fileHash pieceLength j v h
  have hfind : db.find? (fun r => r.file_hash == fileHash &&
      r.piece_length == pieceLength && r.piece_index == j) = none := by
    simpa [lookupRow] using h
  simp [insertOrIgnore, ha, lookupRow, List.find?_append, hfind, List.find?]

theorem lookupRow_insertOrIgnore_ne_none (db : List PieceRow)
    (fileHash : String) (pieceLength i j : Nat) (v : Bytes)
    (h : lookupRow db fileHash pieceLength i = none) (hne : i ≠ j) :
    lookupRow (insertOrIgnore db (PieceRow.mk fileHash pieceLength j v))
      fileHash pieceLength i = none := by
  have hfind : db.find? (fun r => r.file_hash == fileHash &&
      r.piece_length == pieceLength && r.piece_index == i) = none := by
    simpa [lookupRow] using h
  have hb : (j == i) = false := beq_eq_false_iff_ne.mpr (Ne.symm hne)
  by_cases ha : db.any (fun x => sameKey x (PieceRow.mk fileHash pieceLength j v)) = true
  · simp [insertOrIgnore, ha, h]
  · simp only [Bool.not_eq_true] at ha
    simp [insertOrIgnore, ha, lookupRow, List.find?_append, hfind, List.find?, hb]

theorem lookupRow_storeFrom_of_some (hs : List Bytes) (j : Nat) (db : List PieceRow)
    (fileHash : String) (pieceLength : Nat) (fh2 : String) (pl2 pi2 : Nat) (d : Bytes)
    (h : lookupRow db fh2 pl2 pi2 = some d) :
    lookupRow (storeFrom db fileHash pieceLength j hs) fh2 pl2 pi2 = some d := by
  induction hs generalizing j db with
  | nil => exact h
  | cons v hs ih =>
    exact ih (j + 1) _ (lookupRow_insertOrIgnore_of_some db _ fh2 pl2 pi2 d h)

theorem lookupRow_storeFrom_insert (hs : List Bytes) (j : Nat) (db : List PieceRow)
    (fileHash : String) (pieceLength i : Nat)
    (hj : j ≤ i) (hlen : i < j + hs.length)
    (h : lookupRow db fileHash pieceLength i = none) :
    lookupRow (storeFrom db fileHash pieceLength j hs) fileHash pieceLength i =
      some (hs.getD (i - j) []) := by
  induction hs generalizing j db with
  | nil => simp only [List.length_nil] at hlen; omega
  | cons v hs ih =>
    by_cases hij : i = j
    · subst hij
      have h1 := lookupRow_insertOrIgnore_self db fileHash pieceLength i v h
      have h2 := lookupRow_storeFrom_of_some hs (i + 1)
        (insertOrIgnore db (PieceRow.mk fileHash pieceLength i v))
        fileHash pieceLength fileHash pieceLength i v h1
      simpa [storeFrom] using h2
    · have hj' : j + 1 ≤ i := by omega
      have hlen' : i < (j + 1) + hs.length := by
        simp only [List.length_cons] at hlen
        omega
      have h1 := lookupRow_insertOrIgnore_ne_none db fileHash pieceLength i j v h
        (by omega)
      have h2 := ih (j + 1) _ hj' hlen' h1
      have hidx : i - j = (i - (j + 1)) + 1 := by omega
      simpa [storeFrom, hidx] using h2

theorem wellKeyed_append_singleton (db : List PieceRow) (r : PieceRow)
    (hw : wellKeyed db = true)
    (h : db.any (fun x => sameKey x r) = false) :
    wellKeyed (db ++ [r]) = true := by
  induction db with
  | nil => simp [wellKeyed]
  | cons a t ih =>
    have hw' : (t.any (fun x => sameKey a x)) = false ∧ wellKeyed t = true := by
      have := hw
      simp only [wellKeyed, Bool.and_eq_true, Bool.not_eq_true'] at this
      exact this
    have h' : (t.any (fun x => sameKey x r)) = false ∧ sameKey a r = false := by
      simp only [List.any_cons, Bool.or_eq_false_iff] at h
      exact ⟨h.2, h.1⟩
    simp only [List.cons_append, wellKeyed, Bool.and_eq_true, Bool.not_eq_true']
    constructor
    · simp [List.append_eq, List.any_append, hw'.1, h'.2]
    · exact ih hw'.2 h'.1

theorem wellKeyed_insertOrIgnore (db : List PieceRow) (r : PieceRow)
    (hw : wellKeyed db = true) : wellKeyed (insertOrIgnore db r) = true := by
  by_cases ha : db.any (fun x => sameKey x r) = true
  · simpa [insertOrIgnore, ha] using hw
  · simp only [Bool.not_eq_true] at ha
    have hif : insertOrIgnore db r = db ++ [r] := by simp [insertOrIgnore, ha]
    rw [hif]
    exact wellKeyed_append_singleton db r hw ha

theorem wellKeyed_storeFrom (hs : List Bytes) (j : Nat) (db : List PieceRow)
    (fileHash : String) (pieceLength : Nat) (hw : wellKeyed db = true) :
    wellKeyed (storeFrom db fileHash pieceLength j hs) = true := by
  induction hs generalizing j db with
  | nil => exact hw
  | cons v hs ih => exact ih (j + 1) _ (wellKeyed_insertOrIgnore db _ hw)

end SrvDb

/-! ## Generic list and arithmetic helpers -/

theorem lookup_append_of_none {α β : Type} [BEq α] (l l' : List (α × β)) (k : α)
    (h : l.lookup k = none) : (l ++ l').lookup k = l'.lookup k := by
  induction l with
  | nil => rfl
  | cons a t ih =>
    obtain ⟨k', v'⟩ := a
    cases hk : (k == k') with
    | true => simp [List.lookup, hk] at h
    | false =>
      simp only [List.lookup, hk] at h
      simpa [List.lookup, hk] using ih h

theorem getD_map_range {α : Type} (n i : Nat) (f : Nat → α) (d : α) (hi : i < n) :
    ((List.range n).map f).getD i d = f i := by
  rw [List.getD_eq_getElem?_getD, List.getElem?_map, List.getElem?_range hi]
  rfl

theorem pieceCountOf_of_mod_ne (len P : Nat) (hP : 0 < P) (hr : len % P ≠ 0) :
    Filetree.pieceCountOf len P = len / P + 1 := by
  have h1 : P * (len / P) + len % P = len := Nat.div_add_mod len P
  have h2 : len % P < P := Nat.mod_lt len hP
  have h3 : 1 ≤ len % P := Nat.one_le_iff_ne_zero.mpr hr
  have hu : P * (len / P + 1) = P * (len / P) + P := by ring
  have h4 : len + P - 1 = (len % P - 1) + P * (len / P + 1) := by omega
  rw [Filetree.pieceCountOf, h4, Nat.add_mul_div_left _ _ hP,
    Nat.div_eq_of_lt (by omega)]
  omega

theorem drop_last_piece_len (len P : Nat) :
    len - (len / P) * P = len % P := by
  have h1 : P * (len / P) + len % P = len := Nat.div_add_mod len P
  rw [Nat.mul_comm]
  omega

namespace Matcher

theorem mem_buildSlotsFrom (P : Nat) (s : Slot) :
    ∀ (fs : List TorrentFile) (i off : Nat), s ∈ buildSlotsFrom P i off fs →
      ∃ j o f, s = buildSlot P j o f := by
  intro fs
  induction fs with
  | nil => intro i off h; cases h
  | cons f rest ih =>
    intro i off h
    rcases List.mem_cons.mp h with heq | hmem
    · exact ⟨i, off, f, heq⟩
    · exact ih _ _ hmem

theorem buildSlot_suffixLen (P j o : Nat) (f : TorrentFile) :
    (buildSlot P j o f).suffixLen =
      if (o + f.length) % P == 0 then 0 else P - (o + f.length) % P := rfl

theorem buildSlot_offsetEnd (P j o : Nat) (f : TorrentFile) :
    (buildSlot P j o f).offsetEnd = o + f.length := rfl

end Matcher

/-! ## Claims -/

/-- C1: the claim states that each interior piece with global index k is
verified by hashing the candidate-local range [k·pieceLength −
offset_start, +pieceLength) and comparing with digest k, also when
offset_start mod pieceLength ≠ 0.  The code instead hashes the
candidate-local range [i·pieceLength, +pieceLength) while comparing with
digest floor((offset_start + i·pieceLength)/pieceLength).  Failing input:
pieceLength 4, torrent stream bytes 1..8 split into f1 = [1,2] and
f2 = [3,4,5,6,7,8] (offset_start 2), digests of the two honest pieces,
SHA-1 abstracted to the identity.  The slot of f2 has the single interior
piece k = 1; its claimed check (read at 1·4−2 = 2) reproduces digest 1,
yet the code pairs digest 1 with the local read at offset 1·4 = 4 and
rejects the byte-identical candidate. -/
theorem claim_C1_global_offset_indexing :
    Filetree.candidateMatches (fun l => l) [[1,2,3,4],[5,6,7,8]] [3,4,5,6,7,8] 4 2 6 [] = false
    ∧ SrvDb.hashPiece (fun l => l) [3,4,5,6,7,8] (1 * 4 - 2) 4 = [5,6,7,8]
    ∧ [[1,2,3,4],[5,6,7,8]].getD 1 [] = ([5,6,7,8] : Bytes)
    ∧ Filetree.torrentHashIndex 2 4 1 = 1
    ∧ (1 * 4 : Nat) ≠ 1 * 4 - 2 := by
  refine ⟨by decide, by decide, by decide, by decide, by decide⟩

/-- C2: the claim states that on the straddling-piece scenario (f1.length
= pieceLength − 10, f2.length = pieceLength + 10, one byte-identical
candidate per slot among two) the matcher accepts exactly the correct
pair, by the boundary-joining criterion SHA1(tail(ℓ) ++ head(r)) =
piece_digests[0].  The code performs no boundary joining: it compares the
digest of each candidate's own local pieces against whole-piece digests,
so on the concrete instance (pieceLength 11, stream bytes 1..22, f1 =
[1], f2 = bytes 2..22, honest digests, SHA-1 the identity) both slots
end with empty locations although the correct pair satisfies the claim's
acceptance criterion (second conjunct). -/
theorem claim_C2_straddling_piece_rejected :
    Filetree.buildFiletree
      { sha1 := fun l => l, root := "/data",
        catalog := fun n => if n == 1 then [⟨"/d/f1good","h1"⟩, ⟨"/d/f1bad","h2"⟩]
                   else if n == 21 then [⟨"/d/f2good","h3"⟩, ⟨"/d/f2bad","h4"⟩] else [],
        fsys := [("/d/f1good",[1]),("/d/f1bad",[9]),
                 ("/d/f2good",(List.range 21).map (·+2)),("/d/f2bad",List.replicate 21 0)],
        pieceDb := [] }
      [(List.range 11).map (·+1), (List.range 11).map (·+12)] 11
      [⟨"f1",1⟩, ⟨"f2",21⟩] 0
    = [⟨"f1",1,[]⟩, ⟨"f2",21,[]⟩]
    ∧ (fun l => l) ([1] ++ ((List.range 21).map (·+2)).take 10)
      = ((List.range 11).map (·+1) : Bytes) := by
  refine ⟨by decide, by decide⟩

/-- C3 counterexample: the claim states suffix_len = 0 iff offset_end mod
piece_length = 0 or the slot is terminal-in-stream.  For the single-file
torrent of length 10 with piece_length 16 the unique (hence terminal)
slot has offset_end mod piece_length = 10 ≠ 0, and buildSlots gives it
suffix_len = 6 ≠ 0, falsifying the terminal-in-stream disjunct. -/
theorem claim_C3_counterexample :
    (Matcher.buildSlots ⟨16, [], [⟨"a", 10⟩]⟩).getLast? =
      some ⟨0, "a", 10, 0, 10, 0, 0, 0, 6, []⟩
    ∧ ¬((6 : Nat) = 0 ↔ ((10 : Nat) % 16 = 0 ∨ True)) := by
  refine ⟨by decide, by decide⟩

/-- C3 amended: for every torrent descriptor with positive piece length
and every slot produced by buildSlots, suffix_len = 0 iff offset_end mod
piece_length = 0 — with no special case for the terminal slot (a
terminal slot whose offset_end is not piece-aligned gets suffix_len =
piece_length − offset_end mod piece_length). -/
theorem claim_C3_amended (info : Matcher.TorrentInfo) (s : Matcher.Slot)
    (hP : 0 < info.pieceLength) (hs : s ∈ Matcher.buildSlots info) :
    s.suffixLen = 0 ↔ s.offsetEnd % info.pieceLength = 0 := by
  obtain ⟨j, o, f, rfl⟩ := Matcher.mem_buildSlotsFrom info.pieceLength s info.files 0 0 hs
  rw [Matcher.buildSlot_suffixLen, Matcher.buildSlot_offsetEnd]
  by_cases h : (o + f.length) % info.pieceLength = 0
  · simp [h]
  · have hb : ((o + f.length) % info.pieceLength == 0) = false :=
      beq_eq_false_iff_ne.mpr h
    have hlt : (o + f.length) % info.pieceLength < info.pieceLength :=
      Nat.mod_lt _ hP
    simp only [hb, Bool.false_eq_true, if_false]
    constructor
    · intro hz; omega
    · intro hz; exact absurd hz h

/-- Witness for the C3 amended theorem: the piece-aligned slot of a
single-file torrent of length 8 with piece_length 4 has suffix_len 0, by
the theorem applied at that concrete descriptor. -/
theorem claim_C3_witness :
    (Matcher.buildSlot 4 0 0 ⟨"a", 8⟩).suffixLen = 0 ↔
      (Matcher.buildSlot 4 0 0 ⟨"a", 8⟩).offsetEnd % 4 = 0 :=
  claim_C3_amended ⟨4, [], [⟨"a", 8⟩]⟩ (Matcher.buildSlot 4 0 0 ⟨"a", 8⟩)
    (by decide) (by decide)

/-- C6 counterexample: the claim states that a short read (file shorter
than offset + length) makes hashPiece fail with IoTruncated.  On the
3-byte file [1,2,3] with offset 0 and length 5 the function instead
completes normally with the digest of the 3 bytes read. -/
theorem claim_C6_counterexample :
    ([1,2,3] : Bytes).length < 0 + 5
    ∧ SrvDb.hashPieceRun (fun l => l) [1,2,3] 0 5 = Except.ok [1,2,3]
    ∧ SrvDb.hashPieceRun (fun l => l) [1,2,3] 0 5 ≠ Except.error IoError.ioTruncated := by
  refine ⟨by decide, rfl, fun h => Except.noConfusion h⟩

/-- C6 amended: on a short read (file shorter than offset + length)
hashPiece does not fail; it returns the SHA-1 of exactly the bytes
present from the offset to end of file. -/
theorem claim_C6_amended (sha1 : Bytes → Bytes) (file : Bytes) (offset length : Nat)
    (h : file.length < offset + length) :
    SrvDb.hashPieceRun sha1 file offset length = Except.ok (sha1 (file.drop offset)) := by
  have hlen : (file.drop offset).length ≤ length := by
    rw [List.length_drop]
    omega
  rw [SrvDb.hashPieceRun, SrvDb.hashPiece, fsRead, List.take_of_length_le hlen]

/-- Witness for the C6 amended theorem at the 3-byte file [1,2,3], offset
1, length 5. -/
theorem claim_C6_witness :
    ([1,2,3] : Bytes).length < 1 + 5
    ∧ SrvDb.hashPieceRun (fun l => l) [1,2,3] 1 5 = Except.ok [2,3] :=
  ⟨by decide, claim_C6_amended (fun l => l) [1,2,3] 1 5 (by decide)⟩

/-- C4 counterexample: the claim states that lookup returns the union of
in-memory and persisted entries for the key.  With the in-memory cache
holding {0 ↦ [1]} for file hash "h" and the table holding the persisted
row ("h", 4, 1, [2]), getCachedPieceHashes returns the memoised map
alone: the persisted entry at index 1 is absent from the result. -/
theorem claim_C4_counterexample :
    (SrvDb.PieceRow.mk "h" 4 1 [2]) ∈ ([⟨"h", 4, 1, [2]⟩] : List SrvDb.PieceRow)
    ∧ ((MemCache.getCachedPieceHashes [("h", [(0, [1])])] [⟨"h", 4, 1, [2]⟩] "h" 4).1).lookup 1
      = none := by
  refine ⟨by decide, by decide⟩

/-- C4 amended: lookup returns a mapping containing every persisted entry
for the key provided the in-memory cache has no entry for the file hash
(so the union property holds exactly when the hash is not yet memoised);
when the hash is memoised, the memoised mapping is returned as-is and
persisted-only entries may be missing. -/
theorem claim_C4_amended (cache : MemCache.PieceCache) (db : List SrvDb.PieceRow)
    (fileHash : String) (pieceLength pieceIndex : Nat) (d : Bytes)
    (hc : cache.lookup fileHash = none) (hw : SrvDb.wellKeyed db = true)
    (hm : SrvDb.PieceRow.mk fileHash pieceLength pieceIndex d ∈ db) :
    ((MemCache.getCachedPieceHashes cache db fileHash pieceLength).1).lookup pieceIndex
      = some d := by
  simp only [MemCache.getCachedPieceHashes, hc]
  have hbr : SrvDb.mapOfRows (SrvDb.rowsFor db fileHash pieceLength) =
      SrvDb.getCachedPieceHashes db fileHash pieceLength := rfl
  rw [hbr, SrvDb.getCached_lookup_eq_lookupRow db fileHash pieceLength pieceIndex hw,
    SrvDb.lookupRow_eq_of_mem db fileHash pieceLength pieceIndex d hw hm]

/-- Witness for the C4 amended theorem: with an empty in-memory cache and
the single persisted row ("h", 4, 1, [2]), lookup returns that entry. -/
theorem claim_C4_witness :
    ((MemCache.getCachedPieceHashes [] [⟨"h", 4, 1, [2]⟩] "h" 4).1).lookup 1 = some [2] :=
  claim_C4_amended [] [⟨"h", 4, 1, [2]⟩] "h" 4 1 [2] rfl (by decide) (by decide)

/-- C5 counterexample: the claim states store(H,P,M) followed by
lookup(H,P) yields a mapping including every entry of M, for every prior
store state.  With the prior row ("h", 4, 0, [10]) and M = {0 ↦ [11]},
INSERT OR IGNORE keeps the old digest and lookup returns {0 ↦ [10]},
which does not include M's entry. -/
theorem claim_C5_counterexample :
    SrvDb.getCachedPieceHashes
        (SrvDb.storePieceHashes [⟨"h", 4, 0, [10]⟩] "h" 4 [[11]]) "h" 4 = [(0, [10])]
    ∧ ¬ (([(0, [10])] : List (Nat × Bytes)).lookup 0 = some [11]) := by
  refine ⟨by decide, by decide⟩

/-- C5 amended: store(H,P,M) followed by lookup(H,P) yields a mapping
whose entry at every index i of M equals M's digest provided the prior
store held no row under the key (H,P,i); a pre-existing row keeps its
previously stored digest (INSERT OR IGNORE). -/
theorem claim_C5_amended (db : List SrvDb.PieceRow) (fileHash : String)
    (pieceLength : Nat) (pieceHashes : List Bytes) (i : Nat)
    (hw : SrvDb.wellKeyed db = true) (hi : i < pieceHashes.length)
    (hnone : SrvDb.lookupRow db fileHash pieceLength i = none) :
    (SrvDb.getCachedPieceHashes
        (SrvDb.storePieceHashes db fileHash pieceLength pieceHashes)
        fileHash pieceLength).lookup i = some (pieceHashes.getD i []) := by
  have h1 := SrvDb.lookupRow_storeFrom_insert pieceHashes 0 db fileHash pieceLength i
    (Nat.zero_le i) (by omega) hnone
  have h2 := SrvDb.wellKeyed_storeFrom pieceHashes 0 db fileHash pieceLength hw
  rw [SrvDb.storePieceHashes, SrvDb.getCached_lookup_eq_lookupRow _ _ _ _ h2]
  simpa using h1

/-- Witness for the C5 amended theorem: storing M = {0 ↦ [11]} into an
empty table and looking the key up returns M's entry. -/
theorem claim_C5_witness :
    (SrvDb.getCachedPieceHashes (SrvDb.storePieceHashes [] "h" 4 [[11]]) "h" 4).lookup 0
      = some [11] :=
  claim_C5_amended [] "h" 4 [[11]] 0 rfl (by decide) rfl

/-- C7: every path in a slot's returned locations list is the resolved
path of some candidate row returned by the catalog query for files whose
file_size equals the slot's size. -/
theorem claim_C7_locations_subset (env : Filetree.MatchEnv) (pieceDigests : List Bytes)
    (pieceLength : Nat) (files : List Filetree.TFile) (globalOffset : Nat)
    (e : Filetree.FileTreeEntry) (p : String)
    (he : e ∈ Filetree.buildFiletree env pieceDigests pieceLength files globalOffset)
    (hp : p ∈ e.locations) :
    ∃ c ∈ env.catalog e.size, p = Filetree.resolvePath env.root c.path := by
  induction files generalizing globalOffset with
  | nil => cases he
  | cons f rest ih =>
    rcases List.mem_cons.mp he with heq | hmem
    · subst heq
      show ∃ c ∈ env.catalog f.length, p = Filetree.resolvePath env.root c.path
      have hp' : p ∈ Filetree.slotLocations env pieceDigests pieceLength globalOffset
          f.length (env.catalog f.length) := hp
      obtain ⟨c, hc, hg⟩ := List.mem_filterMap.mp hp'
      refine ⟨c, hc, ?_⟩
      revert hg
      cases hfs : env.fsys.lookup (Filetree.resolvePath env.root c.path) with
      | none => intro hg; simp [hfs] at hg
      | some content =>
        intro hg
        simp only [hfs] at hg
        by_cases hmatch : Filetree.candidateMatches env.sha1 pieceDigests content
            pieceLength globalOffset f.length
            (SrvDb.getCachedPieceHashes env.pieceDb c.hash pieceLength) = true
        · simp only [hmatch, if_true] at hg
          exact (Option.some.inj hg).symm
        · simp only [Bool.not_eq_true] at hmatch
          simp [hmatch] at hg
    · exact ih _ hmem

/-- Witness for C7 at a single-file torrent whose one candidate matches:
the returned location "/d/a" comes from the catalog's size-4 bucket. -/
theorem claim_C7_witness :
    ∃ c ∈ ([⟨"/d/a", "h1"⟩] : List Filetree.CatalogRow),
      "/d/a" = Filetree.resolvePath "/root" c.path :=
  claim_C7_locations_subset
    { sha1 := fun l => l, root := "/root",
      catalog := fun n => if n == 4 then [⟨"/d/a", "h1"⟩] else [],
      fsys := [("/d/a", [1, 2, 3, 4])], pieceDb := [] }
    [[1, 2, 3, 4]] 4 [⟨"a", 4⟩] 0 ⟨"a", 4, ["/d/a"]⟩ "/d/a"
    (by decide) (by decide)

/-- C8: the in-memory memo is keyed by file hash alone.  After a call for
(H, P1) has populated the memo entry for H, a later call for (H, P2)
with P2 ≠ P1 returns the very mapping memoised by the first call,
without querying the database (third component false), against any
database state. -/
theorem claim_C8_memo_keyed_by_hash (cache : MemCache.PieceCache)
    (db db2 : List SrvDb.PieceRow) (fileHash : String) (P1 P2 : Nat)
    (_hne : P1 ≠ P2) :
    MemCache.getCachedPieceHashes
        (MemCache.getCachedPieceHashes cache db fileHash P1).2.1 db2 fileHash P2 =
      ((MemCache.getCachedPieceHashes cache db fileHash P1).1,
        (MemCache.getCachedPieceHashes cache db fileHash P1).2.1, false) := by
  cases hc : cache.lookup fileHash with
  | some m => simp [MemCache.getCachedPieceHashes, hc]
  | none =>
    have hl : ((cache ++ [(fileHash, SrvDb.mapOfRows (SrvDb.rowsFor db fileHash P1))])
        : MemCache.PieceCache).lookup fileHash =
        some (SrvDb.mapOfRows (SrvDb.rowsFor db fileHash P1)) := by
      rw [lookup_append_of_none _ _ _ hc]
      simp [List.lookup]
    simp [MemCache.getCachedPieceHashes, hc, hl]

/-- Witness for C8: after a call for ("h", 4) on one database state, a
call for ("h", 8) on a different database state returns the memoised
mapping and does not query. -/
theorem claim_C8_witness :
    MemCache.getCachedPieceHashes
        (MemCache.getCachedPieceHashes [] [⟨"h", 4, 0, [1]⟩] "h" 4).2.1
        [⟨"h", 8, 5, [9]⟩] "h" 8 =
      ((MemCache.getCachedPieceHashes [] [⟨"h", 4, 0, [1]⟩] "h" 4).1,
        (MemCache.getCachedPieceHashes [] [⟨"h", 4, 0, [1]⟩] "h" 4).2.1, false) :=
  claim_C8_memo_keyed_by_hash [] [⟨"h", 4, 0, [1]⟩] [⟨"h", 8, 5, [9]⟩] "h" 4 8
    (by decide)

/-- C9: storePieceHashes never overwrites an existing persisted digest
(INSERT OR IGNORE): any row observable before the store — under the same
key with a different incoming digest, or under any other key — is
observable unchanged afterwards. -/
theorem claim_C9_first_writer_wins (db : List SrvDb.PieceRow) (fileHash : String)
    (pieceLength : Nat) (pieceHashes : List Bytes) (fh2 : String) (pl2 pi2 : Nat)
    (d : Bytes) (h : SrvDb.lookupRow db fh2 pl2 pi2 = some d) :
    SrvDb.lookupRow (SrvDb.storePieceHashes db fileHash pieceLength pieceHashes)
      fh2 pl2 pi2 = some d :=
  SrvDb.lookupRow_storeFrom_of_some pieceHashes 0 db fileHash pieceLength fh2 pl2 pi2 d h

/-- Witness for C9: storing digest [11] under the key ("h", 4, 0) that
already holds [10] leaves [10] in place. -/
theorem claim_C9_witness :
    SrvDb.lookupRow (SrvDb.storePieceHashes [⟨"h", 4, 0, [10]⟩] "h" 4 [[11]]) "h" 4 0
      = some [10] :=
  claim_C9_first_writer_wins [⟨"h", 4, 0, [10]⟩] "h" 4 [[11]] "h" 4 0 [10] (by decide)

/-- C10: for a candidate file whose size is not a multiple of
piece_length, and whose final piece is not served from the cache, the
digest computePieces computes for the final piece equals the SHA-1 of
exactly the trailing size mod piece_length bytes of the file, although
the read was requested with the full piece_length: the short read
returns only the remaining bytes and hashPiece hashes the bytes read. -/
theorem claim_C10_final_piece_short_read (sha1 : Bytes → Bytes) (file : Bytes)
    (pieceLength : Nat) (cachedPieces : List (Nat × Bytes)) (globalOffset : Nat)
    (hP : 0 < pieceLength) (hr : file.length % pieceLength ≠ 0)
    (hc : cachedPieces.lookup (Filetree.pieceCountOf file.length pieceLength - 1) = none) :
    (Filetree.computePieces sha1 file pieceLength
        (Filetree.pieceCountOf file.length pieceLength) cachedPieces globalOffset).getD
        (Filetree.pieceCountOf file.length pieceLength - 1) []
      = sha1 (file.drop ((Filetree.pieceCountOf file.length pieceLength - 1) * pieceLength))
    ∧ (file.drop ((Filetree.pieceCountOf file.length pieceLength - 1) * pieceLength)).length
      = file.length % pieceLength := by
  have hpc := pieceCountOf_of_mod_ne file.length pieceLength hP hr
  have hidx : Filetree.pieceCountOf file.length pieceLength - 1 = file.length / pieceLength := by
    rw [hpc]
    exact Nat.add_sub_cancel _ _
  have hdroplen : (file.drop ((file.length / pieceLength) * pieceLength)).length =
      file.length % pieceLength := by
    rw [List.length_drop, drop_last_piece_len]
  have hmod : file.length % pieceLength < pieceLength := Nat.mod_lt _ hP
  constructor
  · rw [hidx, Filetree.computePieces,
      getD_map_range _ _ _ _ (by rw [hpc]; exact Nat.lt_succ_self _)]
    rw [hidx] at hc
    simp only [hc, SrvDb.hashPiece, fsRead]
    have harith : globalOffset + file.length / pieceLength * pieceLength + pieceLength -
        (globalOffset + file.length / pieceLength * pieceLength) = pieceLength :=
      Nat.add_sub_cancel_left _ _
    rw [harith, List.take_of_length_le (by rw [hdroplen]; exact Nat.le_of_lt hmod)]
  · rw [hidx]
    exact hdroplen

/-- Witness for C10 at the 3-byte file [1,2,3] with piece_length 2: the
final piece digest is the hash of the single trailing byte. -/
theorem claim_C10_witness :
    (Filetree.computePieces (fun l => l) [1, 2, 3] 2 (Filetree.pieceCountOf 3 2) [] 0).getD
        (Filetree.pieceCountOf 3 2 - 1) []
      = (fun l => l) (([1, 2, 3] : Bytes).drop ((Filetree.pieceCountOf 3 2 - 1) * 2))
    ∧ (([1, 2, 3] : Bytes).drop ((Filetree.pieceCountOf 3 2 - 1) * 2)).length = 3 % 2 :=
  claim_C10_final_piece_short_read (fun l => l) [1, 2, 3] 2 [] 0 (by decide) (by decide) rfl
